import Mathlib

/-!
Verification of the lifelog-to-Omi migration script.

The development shallowly embeds the pure core of the script:
record transformation (convert_lifelog_to_omi), oversized-payload
splitting (split_payload_if_needed), pre-flight statistics
(analyze_lifelogs), per-record import classification
(import_single_lifelog), and adaptive date-range discovery
(get_date_range).

Modelling conventions:
* JSON dictionaries become structures; a key that the script reads with a
  default becomes an Option field read through Option.getD.
* Millisecond offsets are integers; division by 1000.0 is modelled as exact
  division in the rationals.
* Network calls are abstracted into oracles: an upload call becomes a
  Bool-valued function of the call position, and a single-date existence
  probe becomes a Bool-valued function of the probed date.  Calendar dates
  are modelled as integer day numbers, so subtracting a timedelta of d days
  is integer subtraction by d.
* The unbounded while-loop of the linear refinement phase of date-range
  discovery is given an explicit fuel argument; a result of none means the
  loop has not finished within that many iterations, and divergence is
  expressed as returning none for every fuel value.
-/

/-- Omi API limit per conversation (OMI_MAX_SEGMENTS = 500 in the script). -/
def OMI_MAX_SEGMENTS : Nat := 500

/-- One content block of a lifelog, as read by the script:
type, content text, optional speakerName, optional start/end offsets
in milliseconds. -/
structure ContentBlock where
  type : String
  content : String
  speakerName : Option String
  startOffsetMs : Option Int
  endOffsetMs : Option Int
deriving DecidableEq

/-- One lifelog record: its content blocks, startTime, endTime and title
(the fields the script reads). -/
structure Lifelog where
  contents : List ContentBlock
  startTime : Option String
  endTime : Option String
  title : Option String
deriving DecidableEq

/-- One transcript segment of the Omi payload built by the script. -/
structure TranscriptSegment where
  text : String
  speaker : String
  speaker_id : Nat
  is_user : Bool
  start : ℚ
  «end» : ℚ
deriving DecidableEq

/-- The Omi conversation payload built by convert_lifelog_to_omi. -/
structure OmiPayload where
  transcript_segments : List TranscriptSegment
  started_at : Option String
  finished_at : Option String
  source : String
  language : String
deriving DecidableEq

/-- Python str.strip() with no argument: remove leading and trailing
whitespace.  Modelled on the character list of the string so that it
evaluates by kernel reduction. -/
def pyStrip (s : String) : String :=
  ⟨((s.data.dropWhile Char.isWhitespace).reverse.dropWhile Char.isWhitespace).reverse⟩

/-- The label string the script builds with f-string SPEAKER_{n:02d}:
zero-padded to two digits. -/
def SPEAKER_label (n : Nat) : String :=
  "SPEAKER_" ++ (if n < 10 then "0" ++ toString n else toString n)

/-- Millisecond-to-second conversion used by the script:
content.get("startOffsetMs", 0) / 1000.0, with the absent key
defaulting to 0. -/
def msToSec (o : Option Int) : ℚ :=
  ((o.getD 0 : Int) : ℚ) / 1000

/-- First index of a key in a list of strings, as computed by the script
with list(speaker_map.keys()).index(speaker_name).  Returns the length
when the key is absent (the script only calls it on present keys). -/
def indexOfName (a : String) : List String → Nat
  | [] => 0
  | b :: l => if b = a then 0 else indexOfName a l + 1

/-- Dictionary lookup speaker_map[speaker_name] on an insertion-ordered
association list. -/
def lookupName (a : String) : List (String × String) → Option String
  | [] => none
  | (k, v) :: l => if k = a then some v else lookupName a l

/-- The insertion step of the speaker map: when the name is not yet a key,
append it with the label of the current map size (the running counter of
the script equals the map size, since keys are never removed). -/
def mapInsert (m : List (String × String)) (name : String) : List (String × String) :=
  if name ∉ m.map Prod.fst then m ++ [(name, SPEAKER_label m.length)] else m

/-- The loop body of convert_lifelog_to_omi: walks the content blocks in
order, carrying the insertion-ordered speaker map (name, label); returns
the built segments together with the final map. -/
def convertSegments : List ContentBlock → List (String × String) →
    List TranscriptSegment × List (String × String)
  | [], m => ([], m)
  | c :: rest, m =>
    if c.type ≠ "blockquote" then convertSegments rest m
    else if pyStrip c.content = "" then convertSegments rest m
    else
      let name := c.speakerName.getD "Unknown"
      let m1 := mapInsert m name
      let seg : TranscriptSegment :=
        { text := pyStrip c.content
          speaker := (lookupName name m1).getD ""
          speaker_id := indexOfName name (m1.map Prod.fst)
          is_user := false
          start := msToSec c.startOffsetMs
          «end» := msToSec c.endOffsetMs }
      let r := convertSegments rest m1
      (seg :: r.1, r.2)

/-- convert_lifelog_to_omi: builds the from-segments payload of a lifelog. -/
def convert_lifelog_to_omi (lifelog : Lifelog) : OmiPayload :=
  { transcript_segments := (convertSegments lifelog.contents []).1
    started_at := lifelog.startTime
    finished_at := lifelog.endTime
    source := "phone"
    language := "en" }

/-- The chunking loop of split_payload_if_needed:
for i in range(0, len(segments), OMI_MAX_SEGMENTS): segments[i:i+OMI_MAX_SEGMENTS]. -/
def chunksOf (l : List TranscriptSegment) : List (List TranscriptSegment) :=
  if l.isEmpty then []
  else l.take OMI_MAX_SEGMENTS :: chunksOf (l.drop OMI_MAX_SEGMENTS)
termination_by l.length
decreasing_by
  simp only [List.length_drop]
  have hl : l ≠ [] := by
    intro h
    subst h
    simp at *
  have : 0 < l.length := List.length_pos.mpr hl
  simp [OMI_MAX_SEGMENTS]
  omega

/-- split_payload_if_needed: returns the payload unchanged (as a singleton
list) when within the limit, otherwise chunk payloads carrying the
original timestamps and provenance fields. -/
def split_payload_if_needed (omi_payload : OmiPayload) : List OmiPayload :=
  let segments := omi_payload.transcript_segments
  if segments.length ≤ OMI_MAX_SEGMENTS then [omi_payload]
  else
    (chunksOf segments).map (fun chunk =>
      { transcript_segments := chunk
        started_at := omi_payload.started_at
        finished_at := omi_payload.finished_at
        source := omi_payload.source
        language := omi_payload.language })

/-- Dictionary date_range[start_time] += 1 with insertion-order preserving
creation, as Python dicts behave. -/
def bumpDate : List (String × Nat) → String → List (String × Nat)
  | [], k => [(k, 1)]
  | (k0, v) :: rest, k =>
    if k0 = k then (k0, v + 1) :: rest else (k0, v) :: bumpDate rest k

/-- Accumulator state of the analyze_lifelogs loop. -/
structure AnalyzeState where
  total_segments : Nat
  empty_count : Nat
  oversized_count : Nat
  extra_conversations : Nat
  dates : List (String × Nat)
deriving DecidableEq

/-- One iteration of the analyze_lifelogs loop.  Note: the segment count
here filters on block type only, with no emptiness check on the text. -/
def analyzeStep (st : AnalyzeState) (log : Lifelog) : AnalyzeState :=
  let segment_count := (log.contents.filter (fun c => c.type = "blockquote")).length
  let st1 := { st with total_segments := st.total_segments + segment_count }
  let st2 :=
    if segment_count = 0 then { st1 with empty_count := st1.empty_count + 1 }
    else if OMI_MAX_SEGMENTS < segment_count then
      let num_parts := (segment_count + OMI_MAX_SEGMENTS - 1) / OMI_MAX_SEGMENTS
      { st1 with
        oversized_count := st1.oversized_count + 1
        extra_conversations := st1.extra_conversations + (num_parts - 1) }
    else st1
  let start_time := (log.startTime.getD "").take 10
  if start_time ≠ "" then { st2 with dates := bumpDate st2.dates start_time } else st2

/-- The statistics dictionary returned by analyze_lifelogs. -/
structure LifelogStats where
  total_lifelogs : Nat
  total_segments : Nat
  empty_count : Nat
  importable : Nat
  oversized_count : Nat
  total_conversations : Nat
  dates : List (String × Nat)
deriving DecidableEq

/-- analyze_lifelogs: the pre-flight statistics pass. -/
def analyze_lifelogs (lifelogs : List Lifelog) : LifelogStats :=
  let st := lifelogs.foldl analyzeStep ⟨0, 0, 0, 0, []⟩
  let importable := lifelogs.length - st.empty_count
  { total_lifelogs := lifelogs.length
    total_segments := st.total_segments
    empty_count := st.empty_count
    importable := importable
    oversized_count := st.oversized_count
    total_conversations := importable + st.extra_conversations
    dates := st.dates }

/-- The title string log.get("title", "Untitled")[:30]. -/
def omiTitle (log : Lifelog) : String :=
  (log.title.getD "Untitled").take 30

/-- Successful uploads among the first n sequential create_conversation
calls, where the oracle upload gives each call position its outcome. -/
def countUploads (upload : Nat → Bool) : Nat → Nat
  | 0 => 0
  | n + 1 => countUploads upload n + (if upload n then 1 else 0)

/-- import_single_lifelog with the upload call abstracted into an oracle:
returns (index, status, title, parts) exactly as the script does. -/
def import_single_lifelog (index : Nat) (log : Lifelog) (upload : Nat → Bool) :
    Nat × String × String × Nat :=
  let title := omiTitle log
  let omi_payload := convert_lifelog_to_omi log
  if omi_payload.transcript_segments = [] then (index, "skipped", title, 0)
  else
    let payloads := split_payload_if_needed omi_payload
    let success_count := countUploads upload payloads.length
    if success_count = payloads.length then (index, "success", title, payloads.length)
    else if 0 < success_count then (index, "partial", title, success_count)
    else (index, "failed", title, 0)

/-- The exponential back-probe loop of get_date_range: days_back starts at
1 and doubles after every successful probe, while days_back < 365.
hasData is the single-date probe oracle; dates are integer day numbers. -/
def expPhase (hasData : Int → Bool) (latest_date : Int)
    (days_back : Nat) (hpos : 0 < days_back) (earliest_date : Int) : Int :=
  if h : days_back < 365 then
    if hasData (latest_date - days_back) then
      expPhase hasData latest_date (days_back * 2) (by omega) (latest_date - days_back)
    else earliest_date
  else earliest_date
termination_by 365 - days_back
decreasing_by omega

/-- The linear refinement loop of get_date_range: step one day back while
the probe keeps succeeding.  fuel bounds the modelled iterations; the
script's loop is unbounded, so none stands for not having terminated
within fuel iterations. -/
def linearPhase (hasData : Int → Bool) : Nat → Int → Option Int
  | 0, _ => none
  | fuel + 1, current =>
    if hasData (current - 1) then linearPhase hasData fuel (current - 1)
    else some current

/-- get_date_range with the network abstracted: latestOpt is the date of
the most recent record (none when the dateless probe returns no records),
hasData the single-date probe oracle.  The outer none means the linear
refinement loop did not terminate within fuel iterations. -/
def get_date_range (hasData : Int → Bool) (latestOpt : Option Int) (fuel : Nat) :
    Option (Option Int × Option Int) :=
  match latestOpt with
  | none => some (none, none)
  | some latest_date =>
    match linearPhase hasData fuel (expPhase hasData latest_date 1 Nat.one_pos latest_date) with
    | none => none
    | some earliest_date => some (some earliest_date, some latest_date)

/-- The blocks convert_lifelog_to_omi retains: blockquote type with text
that is non-empty after stripping. -/
def retainedBlocks : List ContentBlock → List ContentBlock
  | [] => []
  | c :: rest =>
    if c.type ≠ "blockquote" then retainedBlocks rest
    else if pyStrip c.content = "" then retainedBlocks rest
    else c :: retainedBlocks rest

/-- The speaker names of the retained blocks, absent names defaulting to
"Unknown". -/
def speakerNames (blocks : List ContentBlock) : List String :=
  (retainedBlocks blocks).map (fun c => c.speakerName.getD "Unknown")

/-- Accumulating step of first-seen speaker collection: append the name
when it has not been seen. -/
def kstep (seen : List String) (name : String) : List String :=
  if name ∉ seen then seen ++ [name] else seen

/-- The distinct speaker names of a list in first-seen order. -/
def firstSeen (names : List String) : List String :=
  names.foldl kstep []

/-! ### Lemmas on the chunking loop -/

lemma chunksOf_nil : chunksOf [] = [] := by
  rw [chunksOf]
  rfl

lemma chunksOf_cons (l : List TranscriptSegment) (h : l ≠ []) :
    chunksOf l = l.take OMI_MAX_SEGMENTS :: chunksOf (l.drop OMI_MAX_SEGMENTS) := by
  rw [chunksOf]
  simp [h]

lemma chunksOf_flatten (l : List TranscriptSegment) : (chunksOf l).flatten = l := by
  suffices h : ∀ n l, List.length l ≤ n → (chunksOf l).flatten = l from h l.length l le_rfl
  intro n
  induction n with
  | zero =>
    intro l hl
    have : l = [] := by
      cases l with
      | nil => rfl
      | cons a t => simp at hl
    subst this
    simp [chunksOf_nil]
  | succ n ih =>
    intro l hl
    by_cases hz : l = []
    · subst hz
      simp [chunksOf_nil]
    · rw [chunksOf_cons l hz]
      have hpos : 0 < l.length := List.length_pos.mpr hz
      have hdrop : (l.drop OMI_MAX_SEGMENTS).length ≤ n := by
        simp only [List.length_drop, OMI_MAX_SEGMENTS]
        omega
      simp only [List.flatten_cons, ih _ hdrop, List.take_append_drop]

lemma chunksOf_length (l : List TranscriptSegment) (h : l ≠ []) :
    (chunksOf l).length = (l.length + (OMI_MAX_SEGMENTS - 1)) / OMI_MAX_SEGMENTS := by
  suffices hgen : ∀ n l, List.length l ≤ n → l ≠ [] →
      (chunksOf l).length = (l.length + (OMI_MAX_SEGMENTS - 1)) / OMI_MAX_SEGMENTS from
    hgen l.length l le_rfl h
  intro n
  induction n with
  | zero =>
    intro l hl hz
    cases l with
    | nil => exact absurd rfl hz
    | cons a t => simp at hl
  | succ n ih =>
    intro l hl hz
    have hpos : 0 < l.length := List.length_pos.mpr hz
    rw [chunksOf_cons l hz]
    simp only [OMI_MAX_SEGMENTS] at *
    by_cases hle : l.length ≤ 500
    · have hdrop : l.drop 500 = [] := by
        apply List.drop_eq_nil_of_le
        omega
      rw [hdrop, chunksOf_nil]
      have : (l.length + 499) / 500 = 1 := by
        apply Nat.div_eq_of_lt_le
        · omega
        · omega
      simp [this]
    · push_neg at hle
      have hdz : l.drop 500 ≠ [] := by
        intro hcon
        have := congrArg List.length hcon
        simp only [List.length_drop, List.length_nil] at this
        omega
      have hdl : (l.drop 500).length ≤ n := by
        simp only [List.length_drop]
        omega
      rw [List.length_cons, ih _ hdl hdz]
      simp only [List.length_drop]
      have h1 : l.length - 500 + 499 = l.length - 1 := by omega
      have h2 : l.length + 499 = (l.length - 1) + 500 := by omega
      rw [h1, h2, Nat.add_div_right _ (by norm_num)]

lemma chunksOf_mem_length {l c : List TranscriptSegment} (hc : c ∈ chunksOf l) :
    c.length ≤ OMI_MAX_SEGMENTS := by
  suffices hgen : ∀ n l c, List.length l ≤ n → c ∈ chunksOf l →
      List.length c ≤ OMI_MAX_SEGMENTS from hgen l.length l c le_rfl hc
  intro n
  induction n with
  | zero =>
    intro l c hl hc
    cases l with
    | nil => simp [chunksOf_nil] at hc
    | cons a t => simp at hl
  | succ n ih =>
    intro l c hl hc
    by_cases hz : l = []
    · subst hz
      simp [chunksOf_nil] at hc
    · rw [chunksOf_cons l hz] at hc
      have hpos : 0 < l.length := List.length_pos.mpr hz
      rcases List.mem_cons.mp hc with hhead | htail
      · subst hhead
        simp [List.length_take]
      · have hdl : (l.drop OMI_MAX_SEGMENTS).length ≤ n := by
          simp only [List.length_drop, OMI_MAX_SEGMENTS]
          omega
        exact ih _ _ hdl htail

/-! ### Lemmas on split_payload_if_needed -/

lemma split_of_le (p : OmiPayload) (h : p.transcript_segments.length ≤ OMI_MAX_SEGMENTS) :
    split_payload_if_needed p = [p] := by
  simp [split_payload_if_needed, h]

lemma split_of_gt (p : OmiPayload) (h : OMI_MAX_SEGMENTS < p.transcript_segments.length) :
    split_payload_if_needed p = (chunksOf p.transcript_segments).map (fun chunk =>
      { transcript_segments := chunk
        started_at := p.started_at
        finished_at := p.finished_at
        source := p.source
        language := p.language }) := by
  simp [split_payload_if_needed, Nat.not_le.mpr h]

/-- Payload count produced by splitting, for nonempty segment lists. -/
lemma split_length_pos (p : OmiPayload) (h : 0 < p.transcript_segments.length) :
    (split_payload_if_needed p).length
      = (p.transcript_segments.length + (OMI_MAX_SEGMENTS - 1)) / OMI_MAX_SEGMENTS := by
  by_cases hle : p.transcript_segments.length ≤ OMI_MAX_SEGMENTS
  · rw [split_of_le p hle]
    simp only [OMI_MAX_SEGMENTS] at *
    have : (p.transcript_segments.length + 499) / 500 = 1 := by
      apply Nat.div_eq_of_lt_le
      · omega
      · omega
    simp [this]
  · push_neg at hle
    rw [split_of_gt p hle, List.length_map]
    have hz : p.transcript_segments ≠ [] := by
      intro hcon
      rw [hcon] at h
      simp at h
    exact chunksOf_length _ hz

/-- Nat ceiling division agrees with the rational ceiling. -/
lemma ceil_div_500 (n : Nat) :
    ⌈((n : ℚ)) / (500 : ℚ)⌉ = (((n + 499) / 500 : ℕ) : ℤ) := by
  have hd := Nat.div_add_mod (n + 499) 500
  have hm : (n + 499) % 500 < 500 := Nat.mod_lt _ (by norm_num)
  set q : ℕ := (n + 499) / 500 with hq
  have key1 : q * 500 ≤ n + 499 := by omega
  have key2 : n ≤ q * 500 := by omega
  have k1Q : (q : ℚ) * 500 ≤ (n : ℚ) + 499 := by exact_mod_cast key1
  have k2Q : (n : ℚ) ≤ (q : ℚ) * 500 := by exact_mod_cast key2
  rw [Int.ceil_eq_iff]
  constructor
  · push_cast
    rw [sub_lt_iff_lt_add,
      show ((n : ℚ) / 500 + 1) = ((n : ℚ) + 500) / 500 by ring,
      lt_div_iff₀ (by norm_num : (0 : ℚ) < 500)]
    linarith
  · push_cast
    rw [div_le_iff₀ (by norm_num : (0 : ℚ) < 500)]
    linarith

/-! ### Concrete records used by witnesses -/

/-- A one-segment witness payload. -/
def payloadW : OmiPayload :=
  { transcript_segments :=
      [{ text := "hello", speaker := "SPEAKER_00", speaker_id := 0,
         is_user := false, start := 0, «end» := 1 }]
    started_at := some "2025-01-02T03:04:05Z"
    finished_at := some "2025-01-02T03:09:05Z"
    source := "phone"
    language := "en" }

/-- A lifelog with no content blocks at all. -/
def emptyLog : Lifelog :=
  { contents := [], startTime := none, endTime := none, title := none }

/-- A lifelog with a single retained blockquote block. -/
def logOne : Lifelog :=
  { contents :=
      [{ type := "blockquote", content := "hello world", speakerName := some "Alice",
         startOffsetMs := some 1500, endOffsetMs := some 2500 }]
    startTime := some "2025-01-02T03:04:05Z"
    endTime := some "2025-01-02T03:09:05Z"
    title := some "Walk" }

/-- C3: splitting is order-preserving and lossless: concatenating the
transcript_segments of the payloads returned by split_payload_if_needed,
in returned order, reproduces the input segment list exactly (hence each
chunk is a contiguous slice of the input), and every chunk holds at most
OMI_MAX_SEGMENTS segments. -/
theorem split_lossless (p : OmiPayload) :
    ((split_payload_if_needed p).map OmiPayload.transcript_segments).flatten
        = p.transcript_segments
    ∧ ∀ q ∈ split_payload_if_needed p,
        q.transcript_segments.length ≤ OMI_MAX_SEGMENTS := by
  by_cases h : p.transcript_segments.length ≤ OMI_MAX_SEGMENTS
  · rw [split_of_le p h]
    constructor
    · simp
    · intro q hq
      simp only [List.mem_singleton] at hq
      subst hq
      exact h
  · push_neg at h
    rw [split_of_gt p h]
    constructor
    · rw [List.map_map]
      have hcomp : (OmiPayload.transcript_segments ∘ fun chunk =>
          ({ transcript_segments := chunk, started_at := p.started_at,
             finished_at := p.finished_at, source := p.source,
             language := p.language } : OmiPayload)) = id := funext fun c => rfl
      rw [hcomp, List.map_id]
      exact chunksOf_flatten _
    · intro q hq
      rw [List.mem_map] at hq
      obtain ⟨c, hc, rfl⟩ := hq
      exact chunksOf_mem_length hc

/-- Witness for C3 at a concrete one-segment payload. -/
theorem split_lossless_witness :
    payloadW ∈ split_payload_if_needed payloadW
    ∧ ((split_payload_if_needed payloadW).map OmiPayload.transcript_segments).flatten
        = payloadW.transcript_segments
    ∧ payloadW.transcript_segments.length ≤ OMI_MAX_SEGMENTS :=
  ⟨by decide, (split_lossless payloadW).1, (split_lossless payloadW).2 payloadW (by decide)⟩

/-- C4: every chunk payload returned by split_payload_if_needed carries
the started_at, finished_at, source and language of the input payload. -/
theorem split_preserves_metadata (p : OmiPayload) :
    ∀ q ∈ split_payload_if_needed p,
      q.started_at = p.started_at ∧ q.finished_at = p.finished_at
      ∧ q.source = p.source ∧ q.language = p.language := by
  intro q hq
  by_cases h : p.transcript_segments.length ≤ OMI_MAX_SEGMENTS
  · rw [split_of_le p h] at hq
    simp only [List.mem_singleton] at hq
    subst hq
    exact ⟨rfl, rfl, rfl, rfl⟩
  · push_neg at h
    rw [split_of_gt p h] at hq
    rw [List.mem_map] at hq
    obtain ⟨c, hc, rfl⟩ := hq
    exact ⟨rfl, rfl, rfl, rfl⟩

/-- Witness for C4 at a concrete payload and chunk. -/
theorem split_preserves_metadata_witness :
    payloadW ∈ split_payload_if_needed payloadW
    ∧ payloadW.started_at = payloadW.started_at
    ∧ payloadW.finished_at = payloadW.finished_at
    ∧ payloadW.source = payloadW.source
    ∧ payloadW.language = payloadW.language :=
  ⟨by decide, (split_preserves_metadata payloadW payloadW (by decide)).1,
    (split_preserves_metadata payloadW payloadW (by decide)).2⟩

/-- C1 counterexample: on a record with zero retained segments,
split_payload_if_needed applied to the converted payload returns one
payload (the unchanged empty payload), not zero payloads. -/
theorem split_transform_empty_counterexample :
    (convert_lifelog_to_omi emptyLog).transcript_segments.length = 0
    ∧ (split_payload_if_needed (convert_lifelog_to_omi emptyLog)).length = 1 := by
  constructor <;> decide

/-- C1 (amended): for every record, the number of payloads produced by
split_payload_if_needed on the payload of convert_lifelog_to_omi equals
the ceiling of segment_count / OMI_MAX_SEGMENTS when the retained segment
count is positive, and equals 1 (a single payload with an empty segment
list) when the retained segment count is 0. -/
theorem split_transform_count (log : Lifelog) :
    (0 < (convert_lifelog_to_omi log).transcript_segments.length →
      ((split_payload_if_needed (convert_lifelog_to_omi log)).length : ℤ)
        = ⌈((convert_lifelog_to_omi log).transcript_segments.length : ℚ)
            / (OMI_MAX_SEGMENTS : ℚ)⌉)
    ∧ ((convert_lifelog_to_omi log).transcript_segments.length = 0 →
      (split_payload_if_needed (convert_lifelog_to_omi log)).length = 1) := by
  constructor
  · intro h
    rw [split_length_pos _ h]
    have h500 : ((OMI_MAX_SEGMENTS : ℚ)) = (500 : ℚ) := by norm_num [OMI_MAX_SEGMENTS]
    rw [h500, ceil_div_500]
    norm_num [OMI_MAX_SEGMENTS]
  · intro h
    have hle : (convert_lifelog_to_omi log).transcript_segments.length ≤ OMI_MAX_SEGMENTS := by
      rw [h]
      exact Nat.zero_le _
    rw [split_of_le _ hle]
    rfl

/-- Witness for C1 at a concrete one-block record. -/
theorem split_transform_count_witness :
    0 < (convert_lifelog_to_omi logOne).transcript_segments.length
    ∧ ((split_payload_if_needed (convert_lifelog_to_omi logOne)).length : ℤ)
      = ⌈((convert_lifelog_to_omi logOne).transcript_segments.length : ℚ)
          / (OMI_MAX_SEGMENTS : ℚ)⌉ :=
  ⟨by decide, (split_transform_count logOne).1 (by decide)⟩

/-! ### Lemmas on the conversion loop -/

/-- The non-speaker fields of the built segments correspond one-to-one, in
order, to the retained blocks. -/
lemma convertSegments_quad (blocks : List ContentBlock) :
    ∀ m, ((convertSegments blocks m).1).map (fun s => (s.text, s.start, s.«end», s.is_user))
      = (retainedBlocks blocks).map (fun c =>
          (pyStrip c.content, msToSec c.startOffsetMs, msToSec c.endOffsetMs, false)) := by
  induction blocks with
  | nil => intro m; rfl
  | cons c rest ih =>
    intro m
    by_cases h1 : c.type = "blockquote"
    · by_cases h2 : pyStrip c.content = ""
      · simp [convertSegments, retainedBlocks, h1, h2, ih]
      · simp [convertSegments, retainedBlocks, h1, h2, ih]
    · simp [convertSegments, retainedBlocks, h1, ih]

lemma convertSegments_length (blocks : List ContentBlock) (m : List (String × String)) :
    ((convertSegments blocks m).1).length = (retainedBlocks blocks).length := by
  have h := congrArg List.length (convertSegments_quad blocks m)
  simpa using h

lemma convertSegments_append (xs : List ContentBlock) :
    ∀ ys m, convertSegments (xs ++ ys) m =
      ((convertSegments xs m).1 ++ (convertSegments ys (convertSegments xs m).2).1,
       (convertSegments ys (convertSegments xs m).2).2) := by
  induction xs with
  | nil => intro ys m; simp [convertSegments]
  | cons c rest ih =>
    intro ys m
    by_cases h1 : c.type = "blockquote"
    · by_cases h2 : pyStrip c.content = ""
      · simp [convertSegments, h1, h2, ih]
      · simp [convertSegments, h1, h2, ih]
    · simp [convertSegments, h1, ih]

lemma convertSegments_no_blockquote (blocks : List ContentBlock) :
    ∀ m, (∀ c ∈ blocks, c.type ≠ "blockquote") → convertSegments blocks m = ([], m) := by
  induction blocks with
  | nil => intro m _; rfl
  | cons c rest ih =>
    intro m h
    have hc : c.type ≠ "blockquote" := h c (List.mem_cons_self c rest)
    have hrest : ∀ b ∈ rest, b.type ≠ "blockquote" := fun b hb => h b (List.mem_cons_of_mem c hb)
    simp [convertSegments, hc, ih m hrest]

/-- Replacing an absent speaker name by the explicit name "Unknown" does
not change the conversion of the block. -/
lemma convertSegments_unknown (c : ContentBlock) (hc : c.speakerName = none)
    (rest : List ContentBlock) (m : List (String × String)) :
    convertSegments (c :: rest) m
      = convertSegments ({ c with speakerName := some "Unknown" } :: rest) m := by
  obtain ⟨ty, co, sp, so, eo⟩ := c
  replace hc : sp = none := hc
  subst hc
  by_cases h1 : ty = "blockquote"
  · by_cases h2 : pyStrip co = ""
    · simp [convertSegments, h1, h2]
    · simp [convertSegments, h1, h2]
  · simp [convertSegments, h1]

/-- C6: the conversion retains exactly the blockquote blocks with
non-whitespace text, in source order; each segment's text is the stripped
block text, offsets are converted from milliseconds to seconds by exact
division by 1000 with absent offsets defaulting to 0, is_user is false on
every segment; and an absent speaker name is treated as the "Unknown"
identity (replacing it with the explicit name "Unknown" gives the same
payload). -/
theorem transform_retention (log : Lifelog) :
    ((convert_lifelog_to_omi log).transcript_segments).map
        (fun s => (s.text, s.start, s.«end», s.is_user))
      = (retainedBlocks log.contents).map (fun c =>
          (pyStrip c.content, ((c.startOffsetMs.getD 0 : Int) : ℚ) / 1000,
           ((c.endOffsetMs.getD 0 : Int) : ℚ) / 1000, false))
    ∧ ∀ pre (c : ContentBlock) post, c.speakerName = none →
        convert_lifelog_to_omi { log with contents := pre ++ c :: post }
          = convert_lifelog_to_omi
              { log with contents := pre ++ { c with speakerName := some "Unknown" } :: post } := by
  constructor
  · have h := convertSegments_quad log.contents []
    simpa [msToSec, convert_lifelog_to_omi] using h
  · intro pre c post hc
    have hseg : (convertSegments (pre ++ c :: post) []).1
        = (convertSegments (pre ++ { c with speakerName := some "Unknown" } :: post) []).1 := by
      rw [convertSegments_append, convertSegments_append, convertSegments_unknown c hc]
    show OmiPayload.mk (convertSegments (pre ++ c :: post) []).1
        log.startTime log.endTime "phone" "en" = _
    rw [hseg]
    rfl

/-- A blockquote block without a speaker name, used by the C6 witness. -/
def cNone : ContentBlock :=
  { type := "blockquote", content := "hi there", speakerName := none,
    startOffsetMs := some 1000, endOffsetMs := none }

/-- Witness for C6 at a concrete record. -/
theorem transform_retention_witness :
    cNone.speakerName = none
    ∧ convert_lifelog_to_omi { logOne with contents := [] ++ cNone :: [] }
        = convert_lifelog_to_omi
            { logOne with contents := [] ++ { cNone with speakerName := some "Unknown" } :: [] } :=
  ⟨rfl, (transform_retention logOne).2 [] cNone [] rfl⟩

/-! ### The speaker map invariant -/

/-- The speaker map stores at position i the label of ordinal i. -/
def GoodMap (m : List (String × String)) : Prop :=
  ∀ i p, m[i]? = some p → p.2 = SPEAKER_label i

lemma GoodMap_nil : GoodMap [] := by
  intro i p hp
  simp at hp

lemma GoodMap_append {m : List (String × String)} (name : String) (h : GoodMap m) :
    GoodMap (m ++ [(name, SPEAKER_label m.length)]) := by
  intro i p hp
  rcases lt_trichotomy i m.length with hlt | heq | hgt
  · rw [List.getElem?_append_left hlt] at hp
    exact h i p hp
  · subst heq
    rw [List.getElem?_concat_length] at hp
    cases hp
    rfl
  · have hlen : (m ++ [(name, SPEAKER_label m.length)]).length ≤ i := by
      simp
      omega
    rw [List.getElem?_eq_none hlen] at hp
    cases hp

/-- On a well-labelled map, dictionary lookup returns the label of the
first position of the name among the keys. -/
lemma lookupName_label (m : List (String × String)) :
    ∀ (j : Nat) (name : String),
      (∀ i p, m[i]? = some p → p.2 = SPEAKER_label (j + i)) →
      name ∈ m.map Prod.fst →
      lookupName name m = some (SPEAKER_label (j + indexOfName name (m.map Prod.fst))) := by
  induction m with
  | nil =>
    intro j name _ hmem
    simp at hmem
  | cons kv rest ih =>
    intro j name hgood hmem
    obtain ⟨k, v⟩ := kv
    by_cases hk : k = name
    · subst hk
      have h0 := hgood 0 (k, v) (by simp)
      simp only [lookupName, List.map_cons, indexOfName, if_pos rfl]
      simpa using h0
    · have hmem2 : name ∈ k :: rest.map Prod.fst := by
        rw [List.map_cons] at hmem
        exact hmem
      have hmem' : name ∈ rest.map Prod.fst := by
        rcases List.mem_cons.mp hmem2 with h | h
        · exact absurd h.symm hk
        · exact h
      have hgood' : ∀ i p, rest[i]? = some p → p.2 = SPEAKER_label ((j + 1) + i) := by
        intro i p hp
        have := hgood (i + 1) p (by simpa [List.getElem?_cons_succ] using hp)
        have harith : j + (i + 1) = (j + 1) + i := by omega
        rw [harith] at this
        exact this
      have hrec := ih (j + 1) name hgood' hmem'
      simp only [lookupName, List.map_cons, indexOfName, if_neg hk]
      rw [hrec]
      have harith : (j + 1) + indexOfName name (rest.map Prod.fst)
          = j + (indexOfName name (rest.map Prod.fst) + 1) := by omega
      rw [harith]

lemma kstep_of_mem {ks : List String} {n : String} (h : n ∈ ks) : kstep ks n = ks := by
  simp [kstep, h]

lemma kstep_of_not_mem {ks : List String} {n : String} (h : n ∉ ks) :
    kstep ks n = ks ++ [n] := by
  simp [kstep, h]

lemma speakerNames_cons_kept {c : ContentBlock} (rest : List ContentBlock)
    (h1 : c.type = "blockquote") (h2 : pyStrip c.content ≠ "") :
    speakerNames (c :: rest) = (c.speakerName.getD "Unknown") :: speakerNames rest := by
  simp [speakerNames, retainedBlocks, h1, h2]

lemma speakerNames_cons_skip_type {c : ContentBlock} (rest : List ContentBlock)
    (h1 : c.type ≠ "blockquote") :
    speakerNames (c :: rest) = speakerNames rest := by
  simp [speakerNames, retainedBlocks, h1]

lemma speakerNames_cons_skip_text {c : ContentBlock} (rest : List ContentBlock)
    (h1 : c.type = "blockquote") (h2 : pyStrip c.content = "") :
    speakerNames (c :: rest) = speakerNames rest := by
  simp [speakerNames, retainedBlocks, h1, h2]

lemma mapInsert_keys (m : List (String × String)) (name : String) :
    (mapInsert m name).map Prod.fst = kstep (m.map Prod.fst) name := by
  by_cases h : name ∈ m.map Prod.fst
  · simp [mapInsert, kstep, h]
  · simp [mapInsert, kstep, h]

lemma mapInsert_good {m : List (String × String)} (name : String) (h : GoodMap m) :
    GoodMap (mapInsert m name) := by
  by_cases hmem : name ∈ m.map Prod.fst
  · simpa [mapInsert, hmem] using h
  · simpa [mapInsert, hmem] using GoodMap_append name h

lemma mem_mapInsert_keys (m : List (String × String)) (name : String) :
    name ∈ (mapInsert m name).map Prod.fst := by
  by_cases hmem : name ∈ m.map Prod.fst
  · simp [mapInsert, hmem]
  · simp [mapInsert, hmem]

/-- After insertion the stored label of the name is the label of its first
key position. -/
lemma mapInsert_speaker {m : List (String × String)} (name : String) (h : GoodMap m) :
    (lookupName name (mapInsert m name)).getD ""
      = SPEAKER_label (indexOfName name ((mapInsert m name).map Prod.fst)) := by
  have hg := mapInsert_good name h
  have hmem := mem_mapInsert_keys m name
  have hlook := lookupName_label (mapInsert m name) 0 name
    (by
      intro i p hp
      rw [Nat.zero_add]
      exact hg i p hp) hmem
  rw [hlook]
  simp

/-- Main correspondence for speaker assignment: starting from any
well-labelled map, each built segment's speaker index is the first-index
of its retained speaker name in the accumulated first-seen key list of the
preceding names, and its label is the label of that index. -/
lemma convertSegments_speaker (blocks : List ContentBlock) :
    ∀ m, GoodMap m →
      GoodMap (convertSegments blocks m).2
      ∧ ((convertSegments blocks m).2.map Prod.fst
          = List.foldl kstep (m.map Prod.fst) (speakerNames blocks))
      ∧ ∀ i seg, ((convertSegments blocks m).1)[i]? = some seg →
          ∃ nm, (speakerNames blocks)[i]? = some nm
            ∧ seg.speaker_id = indexOfName nm
                (List.foldl kstep (m.map Prod.fst) ((speakerNames blocks).take (i + 1)))
            ∧ seg.speaker = SPEAKER_label seg.speaker_id := by
  induction blocks with
  | nil =>
    intro m hm
    refine ⟨hm, by simp [convertSegments, speakerNames, retainedBlocks], ?_⟩
    intro i seg hseg
    simp [convertSegments] at hseg
  | cons c rest ih =>
    intro m hm
    by_cases h1 : c.type = "blockquote"
    · by_cases h2 : pyStrip c.content = ""
      · have hcs : convertSegments (c :: rest) m = convertSegments rest m := by
          simp [convertSegments, h1, h2]
        have hnames := speakerNames_cons_skip_text rest h1 h2
        rw [hcs, hnames]
        exact ih m hm
      · -- the block is retained
        have hgood1 : GoodMap (mapInsert m (c.speakerName.getD "Unknown")) :=
          mapInsert_good _ hm
        have hpair : convertSegments (c :: rest) m =
            (({ text := pyStrip c.content
                speaker := (lookupName (c.speakerName.getD "Unknown")
                    (mapInsert m (c.speakerName.getD "Unknown"))).getD ""
                speaker_id := indexOfName (c.speakerName.getD "Unknown")
                    ((mapInsert m (c.speakerName.getD "Unknown")).map Prod.fst)
                is_user := false
                start := msToSec c.startOffsetMs
                «end» := msToSec c.endOffsetMs } : TranscriptSegment)
              :: (convertSegments rest (mapInsert m (c.speakerName.getD "Unknown"))).1,
             (convertSegments rest (mapInsert m (c.speakerName.getD "Unknown"))).2) := by
          simp only [convertSegments]
          rw [if_neg (not_not_intro h1), if_neg h2]
        have hnames := speakerNames_cons_kept rest h1 h2
        refine ⟨?_, ?_, ?_⟩
        · rw [hpair]
          exact (ih _ hgood1).1
        · rw [hpair, hnames, List.foldl_cons, ← mapInsert_keys]
          exact (ih _ hgood1).2.1
        · intro i seg hseg
          rw [hpair] at hseg
          cases i with
          | zero =>
            rw [List.getElem?_cons_zero] at hseg
            cases hseg
            refine ⟨c.speakerName.getD "Unknown", by rw [hnames, List.getElem?_cons_zero], ?_, ?_⟩
            · rw [hnames]
              show indexOfName _ _ = indexOfName _ (List.foldl kstep (m.map Prod.fst)
                (((c.speakerName.getD "Unknown") :: speakerNames rest).take 1))
              rw [List.take_succ_cons, List.take_zero, List.foldl_cons, List.foldl_nil,
                ← mapInsert_keys]
            · exact mapInsert_speaker _ hm
          | succ i =>
            rw [List.getElem?_cons_succ] at hseg
            obtain ⟨nm, hnm, hid, hsp⟩ := (ih _ hgood1).2.2 i seg hseg
            refine ⟨nm, ?_, ?_, hsp⟩
            · rw [hnames, List.getElem?_cons_succ]
              exact hnm
            · rw [hnames, List.take_succ_cons, List.foldl_cons, ← mapInsert_keys]
              exact hid
    · have hcs : convertSegments (c :: rest) m = convertSegments rest m := by
        simp [convertSegments, h1]
      have hnames := speakerNames_cons_skip_type rest h1
      rw [hcs, hnames]
      exact ih m hm

/-- C5: within one conversion call, speaker labels are assigned in
first-seen order over the record's retained blocks: the segment at
position i carries the i-th retained speaker name nm, its speaker_id is
the first index of nm among the distinct names seen in the first i+1
retained names, and its speaker label is SPEAKER_label applied to that
ordinal (the zero-padded SPEAKER_NN string).  The assignment is a pure
function of the record, hence deterministic. -/
theorem speaker_first_seen (log : Lifelog) :
    (convert_lifelog_to_omi log).transcript_segments.length
        = (speakerNames log.contents).length
    ∧ ∀ i seg, ((convert_lifelog_to_omi log).transcript_segments)[i]? = some seg →
        ∃ nm, (speakerNames log.contents)[i]? = some nm
          ∧ seg.speaker_id = indexOfName nm (firstSeen ((speakerNames log.contents).take (i + 1)))
          ∧ seg.speaker = SPEAKER_label seg.speaker_id := by
  constructor
  · show ((convertSegments log.contents []).1).length = _
    rw [convertSegments_length]
    simp [speakerNames]
  · intro i seg hseg
    have h := (convertSegments_speaker log.contents [] GoodMap_nil).2.2 i seg hseg
    simpa [firstSeen] using h

/-- The four-speaker example record with retained speaker names
[A, B, A, C]. -/
def logABAC : Lifelog :=
  { contents :=
      [{ type := "blockquote", content := "a", speakerName := some "A",
         startOffsetMs := none, endOffsetMs := none },
       { type := "blockquote", content := "b", speakerName := some "B",
         startOffsetMs := none, endOffsetMs := none },
       { type := "blockquote", content := "c", speakerName := some "A",
         startOffsetMs := none, endOffsetMs := none },
       { type := "blockquote", content := "d", speakerName := some "C",
         startOffsetMs := none, endOffsetMs := none }]
    startTime := some "2025-01-02T03:04:05Z"
    endTime := some "2025-01-02T03:09:05Z"
    title := some "Chat" }

/-- The third segment the conversion builds for logABAC. -/
def segABAC2 : TranscriptSegment :=
  { text := "c", speaker := "SPEAKER_00", speaker_id := 0,
    is_user := false, start := msToSec none, «end» := msToSec none }

/-- Witness for C5: on the [A, B, A, C] record the speaker indices are
[0, 1, 0, 2], and the theorem instantiated at position 2 (the repeated A). -/
theorem speaker_first_seen_witness :
    (convert_lifelog_to_omi logABAC).transcript_segments.map TranscriptSegment.speaker_id
        = [0, 1, 0, 2]
    ∧ ∃ nm, (speakerNames logABAC.contents)[2]? = some nm
        ∧ segABAC2.speaker_id = indexOfName nm (firstSeen ((speakerNames logABAC.contents).take 3))
        ∧ segABAC2.speaker = SPEAKER_label segABAC2.speaker_id :=
  ⟨by decide, (speaker_first_seen logABAC).2 2 segABAC2 rfl⟩

lemma split_length_ne_zero (p : OmiPayload) (h : p.transcript_segments ≠ []) :
    0 < (split_payload_if_needed p).length := by
  by_cases hle : p.transcript_segments.length ≤ OMI_MAX_SEGMENTS
  · rw [split_of_le p hle]
    simp
  · push_neg at hle
    rw [split_of_gt p hle, List.length_map, chunksOf_cons _ h]
    simp

/-- C7: per-record import classification.  A record with no retained
segments is reported skipped with count 0 and the upload oracle is never
consulted (in particular any record whose blocks are all non-blockquote is
skipped); otherwise, with k of the record's n chunk uploads succeeding,
the outcome is success with count n when k = n, "partial" with count k
when 0 < k < n, and failed with count 0 when k = 0. -/
theorem import_classification (index : Nat) (log : Lifelog) (upload : Nat → Bool) :
    ((convert_lifelog_to_omi log).transcript_segments = [] →
        import_single_lifelog index log upload = (index, "skipped", omiTitle log, 0)
        ∧ ∀ u2 : Nat → Bool,
            import_single_lifelog index log u2 = import_single_lifelog index log upload)
    ∧ ((∀ c ∈ log.contents, c.type ≠ "blockquote") →
        import_single_lifelog index log upload = (index, "skipped", omiTitle log, 0))
    ∧ ((convert_lifelog_to_omi log).transcript_segments ≠ [] →
        (countUploads upload (split_payload_if_needed (convert_lifelog_to_omi log)).length
            = (split_payload_if_needed (convert_lifelog_to_omi log)).length →
          import_single_lifelog index log upload
            = (index, "success", omiTitle log,
                (split_payload_if_needed (convert_lifelog_to_omi log)).length))
        ∧ (0 < countUploads upload (split_payload_if_needed (convert_lifelog_to_omi log)).length →
           countUploads upload (split_payload_if_needed (convert_lifelog_to_omi log)).length
              < (split_payload_if_needed (convert_lifelog_to_omi log)).length →
          import_single_lifelog index log upload
            = (index, "partial", omiTitle log,
                countUploads upload (split_payload_if_needed (convert_lifelog_to_omi log)).length))
        ∧ (countUploads upload (split_payload_if_needed (convert_lifelog_to_omi log)).length = 0 →
          import_single_lifelog index log upload = (index, "failed", omiTitle log, 0))) := by
  refine ⟨?_, ?_, ?_⟩
  · intro hempty
    constructor
    · simp [import_single_lifelog, hempty]
    · intro u2
      simp [import_single_lifelog, hempty]
  · intro hnb
    have hempty : (convert_lifelog_to_omi log).transcript_segments = [] := by
      show (convertSegments log.contents []).1 = []
      rw [convertSegments_no_blockquote log.contents [] hnb]
    simp [import_single_lifelog, hempty]
  · intro hne
    refine ⟨?_, ?_, ?_⟩
    · intro hk
      simp [import_single_lifelog, hne, hk]
    · intro hk0 hkn
      have hkne : ¬(countUploads upload (split_payload_if_needed (convert_lifelog_to_omi log)).length
          = (split_payload_if_needed (convert_lifelog_to_omi log)).length) := by omega
      simp [import_single_lifelog, hne, hkne, hk0]
    · intro hk
      have hpos := split_length_ne_zero (convert_lifelog_to_omi log) hne
      have hkne : ¬(countUploads upload (split_payload_if_needed (convert_lifelog_to_omi log)).length
          = (split_payload_if_needed (convert_lifelog_to_omi log)).length) := by omega
      simp [import_single_lifelog, hne, hkne, hk]
      omega

lemma retainedBlocks_replicate (n : Nat) (c : ContentBlock)
    (h1 : c.type = "blockquote") (h2 : pyStrip c.content ≠ "") :
    retainedBlocks (List.replicate n c) = List.replicate n c := by
  induction n with
  | zero => rfl
  | succ n ih => simp [List.replicate_succ, retainedBlocks, h1, h2, ih]

/-- The block used to build a 1200-segment record. -/
def blockQ : ContentBlock :=
  { type := "blockquote", content := "hi", speakerName := some "A",
    startOffsetMs := none, endOffsetMs := none }

/-- A record with 1200 retained transcript segments. -/
def log1200 : Lifelog :=
  { contents := List.replicate 1200 blockQ
    startTime := some "2025-01-02T03:04:05Z"
    endTime := some "2025-01-02T09:04:05Z"
    title := some "Big" }

/-- Upload oracle under which exactly calls 0 and 1 succeed. -/
def upload2of3 : Nat → Bool := fun i => decide (i < 2)

/-- Witness for C7: the 1200-segment record splits into 3 chunks; with 2
of the 3 uploads succeeding the outcome is "partial" with count 2. -/
theorem import_classification_witness :
    (convert_lifelog_to_omi log1200).transcript_segments ≠ []
    ∧ (split_payload_if_needed (convert_lifelog_to_omi log1200)).length = 3
    ∧ import_single_lifelog 0 log1200 upload2of3 = (0, "partial", omiTitle log1200, 2) := by
  have hlen : (convert_lifelog_to_omi log1200).transcript_segments.length = 1200 := by
    show ((convertSegments log1200.contents []).1).length = 1200
    rw [convertSegments_length]
    show (retainedBlocks (List.replicate 1200 blockQ)).length = 1200
    rw [retainedBlocks_replicate 1200 blockQ rfl (by decide)]
    rw [List.length_replicate]
  have hne : (convert_lifelog_to_omi log1200).transcript_segments ≠ [] := by
    intro hcon
    rw [hcon] at hlen
    simp at hlen
  have hgt : OMI_MAX_SEGMENTS < (convert_lifelog_to_omi log1200).transcript_segments.length := by
    rw [hlen]
    norm_num [OMI_MAX_SEGMENTS]
  have hsplitlen : (split_payload_if_needed (convert_lifelog_to_omi log1200)).length = 3 := by
    rw [split_of_gt _ hgt, List.length_map, chunksOf_length _ hne, hlen]
    norm_num [OMI_MAX_SEGMENTS]
  have hk : countUploads upload2of3 (split_payload_if_needed (convert_lifelog_to_omi log1200)).length
      = 2 := by
    rw [hsplitlen]
    decide
  have hresult := ((import_classification 0 log1200 upload2of3).2.2 hne).2.1
    (by rw [hk]; norm_num) (by rw [hk, hsplitlen]; norm_num)
  exact ⟨hne, hsplitlen, by rw [hresult, hk]⟩

/-- A record whose only content block is a blockquote with
whitespace-only text. -/
def wsLog : Lifelog :=
  { contents :=
      [{ type := "blockquote", content := " ", speakerName := some "A",
         startOffsetMs := none, endOffsetMs := none }]
    startTime := some "2025-01-02T03:04:05Z"
    endTime := some "2025-01-02T03:09:05Z"
    title := some "Ws" }

set_option maxRecDepth 8000 in
/-- C2 (code bug evidence): analyze_lifelogs counts blockquote blocks
without the whitespace-only text filter that convert_lifelog_to_omi
applies, so on a record whose only block is a whitespace-only blockquote
the stats count 1 segment and classify the record importable (1 projected
conversation), while the import path retains 0 segments and skips the
record, producing 0 conversations. -/
theorem stats_vs_import_divergence :
    (analyze_lifelogs [wsLog]).total_segments = 1
    ∧ (analyze_lifelogs [wsLog]).empty_count = 0
    ∧ (analyze_lifelogs [wsLog]).importable = 1
    ∧ (analyze_lifelogs [wsLog]).total_conversations = 1
    ∧ (convert_lifelog_to_omi wsLog).transcript_segments.length = 0
    ∧ import_single_lifelog 0 wsLog (fun _ => true) = (0, "skipped", omiTitle wsLog, 0) := by
  refine ⟨?_, ?_, ?_, ?_, ?_, ?_⟩ <;> decide

/-! ### Date-range discovery -/

/-- Probe oracle with records exactly on day numbers 10 through 20
(modelling calendar dates 2025-01-10 through 2025-01-20). -/
def hasDataJan (d : Int) : Bool := decide (10 ≤ d ∧ d ≤ 20)

/-- C8: get_date_range returns (absent, absent) when no most recent
record exists; and on the oracle with data exactly on days 10..20 and the
most recent record on day 20, it returns (10, 20) for any fuel covering
the three linear-refinement iterations: the exponential back-probe lands
on day 12 (probing 19, 18, 16, 12 with doubling step, then failing at 4),
and the linear refinement walks 11, 10 and stops when day 9 reports no
data. -/
theorem date_range_discovery :
    (∀ (hasData : Int → Bool) (fuel : Nat),
        get_date_range hasData none fuel = some (none, none))
    ∧ ∀ fuel : Nat, 3 ≤ fuel →
        get_date_range hasDataJan (some 20) fuel = some (some 10, some 20) := by
  constructor
  · intro hasData fuel
    rfl
  · intro fuel hf
    obtain ⟨k, rfl⟩ : ∃ k, fuel = k + 3 := ⟨fuel - 3, by omega⟩
    have hexp : expPhase hasDataJan 20 1 Nat.one_pos 20 = 12 := by
      rw [expPhase]
      norm_num [hasDataJan]
      rw [expPhase]
      norm_num [hasDataJan]
      rw [expPhase]
      norm_num [hasDataJan]
      rw [expPhase]
      norm_num [hasDataJan]
      rw [expPhase]
      norm_num [hasDataJan]
    have hlin : linearPhase hasDataJan (k + 3) 12 = some 10 := by
      show linearPhase hasDataJan (k + 2 + 1) 12 = some 10
      rw [linearPhase]
      norm_num [hasDataJan]
      show linearPhase hasDataJan (k + 1 + 1) 11 = some 10
      rw [linearPhase]
      norm_num [hasDataJan]
      show linearPhase hasDataJan (k + 1) 10 = some 10
      rw [linearPhase]
      norm_num [hasDataJan]
    simp only [get_date_range]
    rw [hexp, hlin]

/-- Witness for C8 at fuel 20. -/
theorem date_range_discovery_witness :
    get_date_range hasDataJan (some 20) 20 = some (some 10, some 20)
    ∧ get_date_range hasDataJan none 20 = some (none, none) :=
  ⟨date_range_discovery.2 20 (by norm_num), date_range_discovery.1 hasDataJan 20⟩

/-! ### Lemmas for the termination behaviour of the linear phase -/

lemma linearPhase_true_none (fuel : Nat) :
    ∀ c : Int, linearPhase (fun _ => true) fuel c = none := by
  induction fuel with
  | zero =>
    intro c
    rfl
  | succ fuel ih =>
    intro c
    simp [linearPhase, ih]

lemma linearPhase_some_of_fail :
    ∀ (k : Nat) (hasData : Int → Bool) (c : Int), hasData (c - k - 1) = false →
      ∃ fuel e, linearPhase hasData fuel c = some e := by
  intro k
  induction k using Nat.strong_induction_on with
  | _ k ih =>
    intro hasData c hk
    by_cases h1 : hasData (c - 1) = true
    · cases k with
      | zero =>
        rw [show c - (0 : Nat) - 1 = c - 1 by norm_num] at hk
        rw [h1] at hk
        cases hk
      | succ j =>
        have hk' : hasData ((c - 1) - j - 1) = false := by
          rw [show (c - 1) - j - 1 = c - (j + 1 : Nat) - 1 by push_cast; ring]
          exact hk
        obtain ⟨fuel, e, hfe⟩ := ih j (by omega) hasData (c - 1) hk'
        refine ⟨fuel + 1, e, ?_⟩
        simp [linearPhase, h1, hfe]
    · have h1' : hasData (c - 1) = false := by
        revert h1
        cases hasData (c - 1) <;> simp
      refine ⟨1, c, ?_⟩
      simp [linearPhase, h1']

lemma linearPhase_fail_of_some :
    ∀ (fuel : Nat) (hasData : Int → Bool) (c e : Int),
      linearPhase hasData fuel c = some e →
      ∃ k : Nat, hasData (c - k - 1) = false := by
  intro fuel
  induction fuel with
  | zero =>
    intro hasData c e h
    simp [linearPhase] at h
  | succ fuel ih =>
    intro hasData c e h
    rw [linearPhase] at h
    by_cases h1 : hasData (c - 1) = true
    · rw [if_pos h1] at h
      obtain ⟨k, hk⟩ := ih hasData (c - 1) e h
      refine ⟨k + 1, ?_⟩
      rw [show c - (k + 1 : Nat) - 1 = (c - 1) - k - 1 by push_cast; ring]
      exact hk
    · refine ⟨0, ?_⟩
      rw [show c - (0 : Nat) - 1 = c - 1 by norm_num]
      revert h1
      cases hasData (c - 1) <;> simp

/-- The exponential phase never advances the candidate past the latest
date. -/
lemma expPhase_le (hasData : Int → Bool) (L : Int) :
    ∀ (n db : Nat) (hdb : 0 < db) (e : Int), 365 - db ≤ n → e ≤ L →
      expPhase hasData L db hdb e ≤ L := by
  intro n
  induction n with
  | zero =>
    intro db hdb e hn he
    rw [expPhase]
    rw [dif_neg (by omega : ¬db < 365)]
    exact he
  | succ n ih =>
    intro db hdb e hn he
    rw [expPhase]
    by_cases hlt : db < 365
    · rw [dif_pos hlt]
      by_cases hd : hasData (L - db) = true
      · rw [if_pos hd]
        refine ih (db * 2) (by omega) _ (by omega) ?_
        have : (0 : Int) ≤ (db : Int) := by positivity
        omega
      · rw [if_neg hd]
        exact he
    · rw [dif_neg hlt]
      exact he

/-- C10: the 365-day ceiling bounds only the exponential phase; the
linear refinement loop is not bounded by any fuel.  With an oracle that
reports data on every date, get_date_range runs out of any fuel (the
modelled divergence); and in general some fuel makes get_date_range
return a result if and only if some date strictly before the candidate
produced by the exponential phase (itself at most the seeded latest date)
reports no data. -/
theorem linear_refinement_unbounded :
    (∀ (L : Int) (fuel : Nat), get_date_range (fun _ => true) (some L) fuel = none)
    ∧ (∀ (hasData : Int → Bool) (L : Int),
        (∃ fuel r, get_date_range hasData (some L) fuel = some r)
          ↔ (∃ k : Nat, hasData (expPhase hasData L 1 Nat.one_pos L - k - 1) = false))
    ∧ (∀ (hasData : Int → Bool) (L : Int), expPhase hasData L 1 Nat.one_pos L ≤ L) := by
  refine ⟨?_, ?_, ?_⟩
  · intro L fuel
    simp only [get_date_range]
    rw [linearPhase_true_none]
  · intro hasData L
    constructor
    · rintro ⟨fuel, r, hr⟩
      simp only [get_date_range] at hr
      cases hmatch : linearPhase hasData fuel (expPhase hasData L 1 Nat.one_pos L) with
      | none =>
        rw [hmatch] at hr
        simp at hr
      | some e =>
        exact linearPhase_fail_of_some fuel hasData _ e hmatch
    · rintro ⟨k, hk⟩
      obtain ⟨fuel, e, hfe⟩ := linearPhase_some_of_fail k hasData _ hk
      refine ⟨fuel, (some e, some L), ?_⟩
      simp only [get_date_range]
      rw [hfe]
  · intro hasData L
    exact expPhase_le hasData L 365 1 Nat.one_pos L (by norm_num) le_rfl

/-- Witness for C10: with data on every date, fuel 5 is exhausted. -/
theorem linear_refinement_unbounded_witness :
    get_date_range (fun _ => true) (some 0) 5 = none :=
  linear_refinement_unbounded.1 0 5
